import Mathlib

/-!
Shallow embedding of the agent core of this repository
(`src/agent.py`): response parsing (`_strip_code_fences`, `_clean_final`,
`_try_load_json_array`, `_try_load_json_action`), tool execution
(`ReActAgent._exec_tool`) and the plan/replan control loop
(`ReActAgent.run`), together with a model, written from the
specification, of the step-based ReAct loop variant the specification
describes (bounded steps, anti-repetition window, safety defaults).

Python strings are modelled as `List Char` at the character-processing
level and as `String` at the interface level.  `json.loads` is an
external library call; it is modelled as an uninterpreted oracle
`loads : String → Option JVal` (`none` = the call raised), and every
theorem about code that calls it quantifies over the oracle.
-/

namespace AgentCore

/-- JSON-like values as produced by Python's `json.loads`: `null`, booleans,
numbers, strings, arrays and objects (objects as association lists in
insertion order; `json.loads` produces at most one binding per key).
Numeric payloads are modelled by `Int`; no property in this development
depends on fractional numbers. -/
inductive JVal where
  | null : JVal
  | bool (b : Bool) : JVal
  | num (n : Int) : JVal
  | str (s : String) : JVal
  | arr (xs : List JVal) : JVal
  | obj (kvs : List (String × JVal)) : JVal

/-- A Python `dict` holding JSON values: an association list keyed by
strings, first binding wins on lookup. -/
abbrev Dict := List (String × JVal)

/-- `d.get(k)`: first value bound to `k`, if any. -/
def dictGet (d : Dict) (k : String) : Option JVal :=
  match d with
  | [] => none
  | (k', v) :: rest => if k' = k then some v else dictGet rest k

/-! ## Character-level utilities (Python `str.strip`, substring search) -/

/-- Python whitespace, as matched by `str.strip()` and the regex class
`\s` (restricted to ASCII; no text handled by the claims contains
non-ASCII whitespace). -/
def pyIsSpace (c : Char) : Bool :=
  c == ' ' || c == '\t' || c == '\n' || c == '\r' || c == '\x0b' || c == '\x0c'

/-- Trailing-whitespace removal (the right half of `str.strip()`). -/
def dropTrailingWs (l : List Char) : List Char :=
  (l.reverse.dropWhile pyIsSpace).reverse

/-- Python `str.strip()`: remove leading and trailing whitespace. -/
def stripChars (l : List Char) : List Char :=
  dropTrailingWs (l.dropWhile pyIsSpace)

/-- Index of the first occurrence of `s` as a contiguous substring of
`b` (the position Python's `sep in body` / `body.split(sep, 1)` finds),
or `none` if `s` does not occur. -/
def firstIdx (s : List Char) : List Char → Option Nat
  | [] => if s.isPrefixOf ([] : List Char) then some 0 else none
  | c :: t =>
    if s.isPrefixOf (c :: t) then some 0
    else (firstIdx s t).map (· + 1)

/-- `s` occurs in `b` at position `i`. -/
def OccursAt (s b : List Char) (i : Nat) : Prop :=
  s <+: b.drop i

/-! ## The code-fence regex

`CODE_FENCE_RE = re.compile('^```[\\w-]*\\s*|\\s*```$', re.MULTILINE)` and
`_strip_code_fences(text) = CODE_FENCE_RE.sub('', text or '').strip()`.

`fenceSubGo` models `CODE_FENCE_RE.sub('', ·)`: it scans the text left to
right; at each position it first tries the alternative
`^```[\w-]*\s*` (backtick fence at line start, then a greedy run of word
characters or hyphens, then a greedy whitespace run) and then the
alternative `\s*```$` (greedy whitespace run, then a fence that ends a
line); a match is deleted and scanning resumes after it, otherwise one
character is emitted.  `^`/`$` are tracked through the `atLineStart`
flag and a one-character lookahead.  Neither alternative needs
backtracking: in both, each greedy run is followed by a token whose
first character the run cannot match.  The fuel argument only serves
termination; every step consumes at least one character, so the wrapper's
`length + 1` fuel is never exhausted. -/

/-- The regex class `[\w-]` (ASCII reading of `\w`). -/
def isWordDash (c : Char) : Bool :=
  c.isAlphanum || c == '_' || c == '-'

/-- Three backticks, the fence delimiter. -/
def fence3 : List Char := "```".data

/-- One pass of `CODE_FENCE_RE.sub('', ·)`; see the section comment. -/
def fenceSubGo : Nat → Bool → List Char → List Char
  | 0, _, _ => []
  | _ + 1, _, [] => []
  | fuel + 1, atLineStart, c :: t =>
    if atLineStart && fence3.isPrefixOf (c :: t) then
      -- alternative `^```[\w-]*\s*`
      let rest := (((c :: t).drop 3).dropWhile isWordDash).dropWhile pyIsSpace
      let consumed := (c :: t).take ((c :: t).length - rest.length)
      fenceSubGo fuel (consumed.getLast? == some '\n') rest
    else
      let w := (c :: t).dropWhile pyIsSpace
      if fence3.isPrefixOf w && ((w.drop 3).head? == some '\n' || (w.drop 3).isEmpty) then
        -- alternative `\s*```$`: the last consumed character is a backtick
        fenceSubGo fuel false (w.drop 3)
      else
        c :: fenceSubGo fuel (c == '\n') t

/-- `_strip_code_fences` on character lists: delete every regex match,
then `strip()`. -/
def stripFences (l : List Char) : List Char :=
  stripChars (fenceSubGo (l.length + 1) true l)

/-- `_strip_code_fences(text)` (the module-level helper; `text or ''`
collapses to `text` because the argument is always a string here). -/
def stripFencesStr (s : String) : String :=
  String.mk (stripFences s.data)

/-! ## `FINAL_RE` and `_clean_final`

`FINAL_RE = re.compile('Final Answer:\\s*(.+)$', re.IGNORECASE | re.DOTALL)`.
A search succeeds at the leftmost position where the literal
`Final Answer:` matches case-insensitively and at least one character
follows (the pattern needs `\s*(.+)` to consume at least one character;
with `DOTALL`, the greedy `(.+)` always extends to the end of the
string).  If the marker only occurs as the final 13 characters, no
position matches, because later positions are too short to hold the
literal. -/

/-- The marker `final answer:` (lower-cased). -/
def finalMarker : List Char := "final answer:".data

/-- `FINAL_RE.search`: the text following the leftmost case-insensitive
occurrence of `Final Answer:`, provided it is non-empty. -/
def finalSearch : List Char → Option (List Char)
  | [] => none
  | c :: t =>
    if ((c :: t).take 13).map Char.toLower = finalMarker then
      let r := (c :: t).drop 13
      if r.isEmpty then none else some r
    else finalSearch t

/-- `m.group(1)` of a successful `FINAL_RE` search on remainder `rest`:
the greedy `\s*` eats the leading whitespace, and `(.+)` takes what is
left; if only whitespace remains, backtracking leaves exactly the last
character to `(.+)`. -/
def finalGroup1 (rest : List Char) : List Char :=
  let w := rest.dropWhile pyIsSpace
  if w.isEmpty then rest.drop (rest.length - 1) else w

/-- The leakage markers `_clean_final` truncates at, in source order:
`['\nPlan:', '\nPLAN:', '\nPiano:', '\n```', '\n{', '\n[']`. -/
def leakMarkers : List (List Char) :=
  ["\nPlan:".data, "\nPLAN:".data, "\nPiano:".data, "\n```".data,
   "\n\x7b".data, "\n[".data]

/-- One iteration of the `for splitter in [...]` loop of `_clean_final`:
`if splitter in body: body = body.split(splitter, 1)[0].strip()`. -/
def truncStep (s b : List Char) : List Char :=
  match firstIdx s b with
  | none => b
  | some q => stripChars (b.take q)

/-- The whole `for splitter in [...]` loop of `_clean_final`. -/
def truncLoop : List (List Char) → List Char → List Char
  | [], b => b
  | s :: rest, b => truncLoop rest (truncStep s b)

/-- `_clean_final(text)`: find the final-answer marker, strip the body
(`_strip_code_fences(m.group(1).strip())`), run the splitter loop, and
return `body or None`. -/
def cleanFinal (text : List Char) : Option (List Char) :=
  match finalSearch text with
  | none => none
  | some rest =>
    let body := stripFences (stripChars (finalGroup1 rest))
    let result := truncLoop leakMarkers body
    if result.isEmpty then none else some result

/-- `_clean_final` at the `String` interface. -/
def cleanFinalStr (s : String) : Option String :=
  (cleanFinal s.data).map String.mk

/-! ## Python value stringification

`_stringify` serializes observations: `json.dumps(obj, ensure_ascii=False)`
for dicts and lists, `'<none>'` for `None`, `str(obj)` otherwise.
`_exec_tool`'s f-string uses `str(tool_name)`.  The escape rules of
`json.dumps` and `repr` are modelled for the common characters (quote,
backslash, newline, tab, carriage return); no claim depends on the
`\uXXXX` forms of other control characters. -/

/-- JSON string escaping as done by `json.dumps` (common escapes). -/
def jsonEscapeChar (c : Char) : List Char :=
  if c = '"' then '\\' :: ['"']
  else if c = '\\' then '\\' :: ['\\']
  else if c = '\n' then '\\' :: ['n']
  else if c = '\t' then '\\' :: ['t']
  else if c = '\r' then '\\' :: ['r']
  else [c]

/-- JSON string escaping on strings. -/
def jsonEscape (s : String) : String :=
  String.mk (s.data.flatMap jsonEscapeChar)

mutual

/-- `json.dumps(v, ensure_ascii=False)` with the default separators
`', '` and `': '`. -/
def jsonDumps : JVal → String
  | .null => "null"
  | .bool true => "true"
  | .bool false => "false"
  | .num n => toString n
  | .str s => "\"" ++ jsonEscape s ++ "\""
  | .arr xs => "[" ++ jsonDumpsList xs ++ "]"
  | .obj kvs => "\x7b" ++ jsonDumpsKVs kvs ++ "\x7d"
termination_by structural v => v

/-- Comma-joined array elements. -/
def jsonDumpsList : List JVal → String
  | [] => ""
  | [v] => jsonDumps v
  | v :: rest => jsonDumps v ++ ", " ++ jsonDumpsList rest
termination_by structural l => l

/-- Comma-joined `"key": value` pairs. -/
def jsonDumpsKVs : List (String × JVal) → String
  | [] => ""
  | [(k, v)] => "\"" ++ jsonEscape k ++ "\": " ++ jsonDumps v
  | (k, v) :: rest =>
    "\"" ++ jsonEscape k ++ "\": " ++ jsonDumps v ++ ", " ++ jsonDumpsKVs rest
termination_by structural l => l

end

mutual

/-- Python `repr` of a loaded JSON value (used inside container
`str()`): dicts and lists print with single-quoted strings. -/
def pyRepr : JVal → String
  | .null => "None"
  | .bool true => "True"
  | .bool false => "False"
  | .num n => toString n
  | .str s => "'" ++ s ++ "'"
  | .arr xs => "[" ++ pyReprList xs ++ "]"
  | .obj kvs => "\x7b" ++ pyReprKVs kvs ++ "\x7d"
termination_by structural v => v

/-- Comma-joined `repr` list elements. -/
def pyReprList : List JVal → String
  | [] => ""
  | [v] => pyRepr v
  | v :: rest => pyRepr v ++ ", " ++ pyReprList rest
termination_by structural l => l

/-- Comma-joined `repr` dict items. -/
def pyReprKVs : List (String × JVal) → String
  | [] => ""
  | [(k, v)] => "'" ++ k ++ "': " ++ pyRepr v
  | (k, v) :: rest => "'" ++ k ++ "': " ++ pyRepr v ++ ", " ++ pyReprKVs rest
termination_by structural l => l

end

/-- Python `str(v)` of a loaded JSON value. -/
def pyStr : JVal → String
  | .null => "None"
  | .bool true => "True"
  | .bool false => "False"
  | .num n => toString n
  | .str s => s
  | .arr xs => pyRepr (.arr xs)
  | .obj kvs => pyRepr (.obj kvs)

/-- `_stringify(obj)`: `'<none>'` for `None`, `json.dumps` for dicts and
lists (which never raises on loaded JSON values, so the `except` branch
is dead), `str(obj)` otherwise. -/
def stringify : JVal → String
  | .null => "<none>"
  | .arr xs => jsonDumps (.arr xs)
  | .obj kvs => jsonDumps (.obj kvs)
  | v => pyStr v

/-! ## `_try_load_json_array` and `_try_load_json_action`

Both strip code fences and feed the result to `json.loads` inside a
`try`.  `loads` is the oracle for that call (`none` = it raised). -/

/-- The shape filter of `_try_load_json_array`: a list keeps exactly its
dict elements, a dict becomes a one-element list, anything else (or a
parse failure) gives `[]`. -/
def arrSelect : Option JVal → List Dict
  | some (.arr xs) => xs.filterMap fun x => match x with | .obj d => some d | _ => none
  | some (.obj d) => [d]
  | _ => []

/-- `_try_load_json_array(text)`. -/
def tryLoadJsonArray (loads : String → Option JVal) (text : String) : List Dict :=
  arrSelect (loads (stripFencesStr text))

/-- The shape selection of `_try_load_json_action`: a dict is returned
as is; a non-empty list whose first element is a dict yields that first
element; anything else yields nothing. -/
def selectAction : JVal → Option Dict
  | .obj d => some d
  | .arr (.obj d :: _) => some d
  | _ => none

/-- `_try_load_json_action(text, fallback)`. -/
def tryLoadJsonAction (loads : String → Option JVal) (text : String)
    (fallbackAction : Dict) : Dict :=
  match loads (stripFencesStr text) with
  | none => fallbackAction
  | some v => (selectAction v).getD fallbackAction

/-! ## `ReActAgent._exec_tool`

The registry `self.tools` maps tool names to `ToolSpec`s; only the
handler matters here, modelled as `JVal → Except String JVal`
(`Except.error msg` = the call raised an exception with `str(e) = msg`;
this covers exceptions raised while `**args` unpacks a non-mapping, which
happen inside the same `try`).  The executor is called with
`action.get('tool')`, which may be any loaded JSON value or `None`
(`none` here); hashable non-string names simply fail the `in` test,
while an unhashable name (a loaded list or dict) makes the `in` test
itself raise `TypeError` — that exception escapes `_exec_tool`, which
the `Except` return type records. -/

/-- A registered tool handler. -/
abbrev Handler := JVal → Except String JVal

/-- The tool registry: name → handler. -/
abbrev Registry := List (String × Handler)

/-- Registry lookup. -/
def regLookup (reg : Registry) (name : String) : Option Handler :=
  match reg with
  | [] => none
  | (n, h) :: rest => if n = name then some h else regLookup rest name

/-- The structured error `{'error': "Tool '<name>' not available."}`. -/
def notAvailable (displayName : String) : JVal :=
  .obj [("error", .str ("Tool '" ++ displayName ++ "' not available."))]

/-- `_exec_tool` for a name that is present as a string: invoke the
handler, converting a raised exception into `{'error': str(e)}`. -/
def execToolStr (reg : Registry) (name : String) (args : JVal) : JVal :=
  match regLookup reg name with
  | none => notAvailable name
  | some h =>
    match h args with
    | .ok v => v
    | .error e => .obj [("error", .str e)]

/-- `_exec_tool(tool_name, args)` with `tool_name` as the loop passes it
(`action.get('tool')`).  `Except.error` models the uncaught `TypeError`
of `tool_name not in self.tools` on unhashable names. -/
def execTool (reg : Registry) (toolName : Option JVal) (args : JVal) :
    Except String JVal :=
  match toolName with
  | some (.arr _) => .error "unhashable type: 'list'"
  | some (.obj _) => .error "unhashable type: 'dict'"
  | some (.str name) => .ok (execToolStr reg name args)
  | other => .ok (notAvailable (match other with
      | some v => pyStr v
      | none => "None"))

/-! ## `ReActAgent.run` (the plan / replan loop)

The three chat-completion round trips (`_ask_for_plan`,
`_confirm_action`, `_ask_if_final`) are modelled as oracles returning
the model's text.  Within one `run` call the system prompt and the user
query are fixed, so each prompt is determined by the accumulated
observation list (plus, for confirmation, the proposed action); the
oracles take exactly those inputs.  The `on_step` observer only prints
(its return value is ignored and it mutates nothing the loop reads), so
it is dropped from the model.  `run` itself can only terminate normally
with a string — or propagate the `TypeError` described at `execTool` —
which the `Except` result records. -/

/-- The model round trips of one `run` invocation. -/
structure PlanOracles where
  askPlan : List String → String
  askConfirm : List String → Dict → String
  askFinal : List String → String

/-- `_confirm_action`: ask the model to confirm or adjust `action`, then
`_try_load_json_action(text, action)` — the proposed action is the
fallback. -/
def confirmAction (loads : String → Option JVal) (o : PlanOracles)
    (obs : List String) (action : Dict) : Dict :=
  tryLoadJsonAction loads (o.askConfirm obs action) action

/-- The fixed fallback returned when the replanning budget is exhausted. -/
def replanFallbackMsg : String :=
  "I could not reach a final answer within the replanning limit."

/-- The `for idx, action in enumerate(plan)` body of `run`: confirm the
action, read `action.get('tool')` and `action.get('args', {})`, execute,
and append `'Observation: ' + _stringify(obs)` to the observations. -/
def execPlan (loads : String → Option JVal) (reg : Registry)
    (o : PlanOracles) : List Dict → List String → Except String (List String)
  | [], obs => .ok obs
  | action :: rest, obs =>
    let confirmed := confirmAction loads o obs action
    let toolName := dictGet confirmed "tool"
    let args := (dictGet confirmed "args").getD (.obj [])
    match execTool reg toolName args with
    | .error e => .error e
    | .ok v => execPlan loads reg o rest (obs ++ ["Observation: " ++ stringify v])

/-- The `while True` loop of `run`, after a plan has been obtained.  The
fuel is the number of replans still allowed (`max_replans - replans`):
the source increments `replans` and compares `replans > max_replans`,
which is exactly fuel exhaustion.  The returned `Nat` counts the replans
performed. -/
def planRunAux (loads : String → Option JVal) (reg : Registry)
    (o : PlanOracles) : Nat → List String → List Dict →
    Except String (String × Nat)
  | fuel, obs, plan =>
    match execPlan loads reg o plan obs with
    | .error e => .error e
    | .ok obs' =>
      match cleanFinalStr (o.askFinal obs') with
      | some f => .ok (f, 0)
      | none =>
        match fuel with
        | 0 => .ok (replanFallbackMsg, 0)
        | fuel' + 1 =>
          (planRunAux loads reg o fuel' obs'
            (tryLoadJsonArray loads (o.askPlan obs'))).map
            fun r => (r.1, r.2 + 1)

/-- `ReActAgent.run(user_query)`: initial plan request, then the loop.
Returns the final string paired with the number of replans performed. -/
def planRun (loads : String → Option JVal) (reg : Registry)
    (o : PlanOracles) (maxReplans : Nat) : Except String (String × Nat) :=
  planRunAux loads reg o maxReplans [] (tryLoadJsonArray loads (o.askPlan []))

/-! ## The step-based ReAct loop variant

The specification (§4.2, §4.1, §3) describes a second loop variant —
one decision per step, a `max_steps` ceiling, an anti-repetition window
of the last 3 action signatures, and safety defaults for missing
arguments.  The repository's sources for that variant are not under
`src/` (only the plan/replan variant above is), so the following
definitions are modelled from the specification's words. -/

/-- Modelled from the spec: the three-way `Decision` tag of §3 —
`Final(text)`, `Action(tool, args)` or `Unparsed`. -/
inductive Decision where
  | Final (text : String) : Decision
  | Action (tool : String) (args : Dict) : Decision
  | Unparsed : Decision

/-- Modelled from the spec (§4.1): the accepted Action shapes — "a
single-element list containing one mapping" (tried first) "or a single
mapping", the mapping "directly containing both a `tool` key and an
`args` key where `args` is itself a mapping" (`tool` a string, since a
Decision's tool is a string). -/
def actionShape (v : JVal) : Option (String × Dict) :=
  let candidate : Option Dict :=
    match v with
    | .arr [.obj d] => some d
    | .obj d => some d
    | _ => none
  match candidate with
  | none => none
  | some d =>
    match dictGet d "tool", dictGet d "args" with
    | some (.str t), some (.obj a) => some (t, a)
    | _, _ => none

/-- Modelled from the spec (§4.1): `parse(raw_text) -> Decision`.  First
the Final Answer marker (with the fence stripping and leakage
truncation of `_clean_final`, whose empty result means "no final answer
found"); otherwise strip fences and parse as structured data, accepting
only the Action shapes; otherwise `Unparsed`, and a parse failure
degrades to `Unparsed`. -/
def parseDecision (loads : String → Option JVal) (raw : String) : Decision :=
  match cleanFinalStr raw with
  | some t => .Final t
  | none =>
    match loads (stripFencesStr raw) with
    | none => .Unparsed
    | some v =>
      match actionShape v with
      | some (t, a) => .Action t a
      | none => .Unparsed

/-- Modelled from the spec (§4.2.3a): the "fixed small set of
date-sensitive tools".  Of the repository's tools only
`openmeteo_forecast` takes a `target_date` argument (`schemas.py`). -/
def dateSensitiveTools : List String := ["openmeteo_forecast"]

/-- Set `k` to `v` unless the mapping already has a `k`. -/
def dictSetDefault (d : Dict) (k : String) (v : JVal) : Dict :=
  if (dictGet d k).isSome then d else d ++ [(k, v)]

/-- Modelled from the spec (§4.2.3a): "if the argument mapping lacks a
units argument, default it to \"metric\"; if the tool is one of a fixed
small set of date-sensitive tools and the mapping lacks a target-date
argument, default it to the literal phrase meaning \"today\" in the
locale in use" — `"oggi"`, the prompt and tools being Italian-locale
(`prompts.py`: "oggi", "domani"; default timezone Europe/Rome). -/
def applyDefaults (tool : String) (args : Dict) : Dict :=
  let a1 := dictSetDefault args "units" (.str "metric")
  if tool ∈ dateSensitiveTools then
    dictSetDefault a1 "target_date" (.str "oggi")
  else a1

/-- Code-point lexicographic string order (what Python's `sorted` uses
on `str` keys). -/
def strLeb : List Char → List Char → Bool
  | [], _ => true
  | _ :: _, [] => false
  | c :: cs, d :: ds =>
    if c.toNat < d.toNat then true
    else if d.toNat < c.toNat then false
    else strLeb cs ds

/-- Modelled from the spec (§3): the Action Signature, a "canonical
serialization of `{tool, args}`" — "tool name + sorted argument
mapping". -/
def insertKV (kv : String × JVal) : Dict → Dict
  | [] => [kv]
  | kv' :: rest =>
    if strLeb kv.1.data kv'.1.data then kv :: kv' :: rest
    else kv' :: insertKV kv rest

/-- Insertion sort of a mapping by key. -/
def sortDict : Dict → Dict
  | [] => []
  | kv :: rest => insertKV kv (sortDict rest)

/-- Modelled from the spec (§3, §4.2.3b): the canonical action
signature. -/
def canonicalSig (tool : String) (args : Dict) : String :=
  tool ++ "|" ++ jsonDumps (.obj (sortDict args))

/-- Modelled from the spec (§4.2.3b, §7): the fixed "stuck repeating"
terminal message (an apology / request for clarification). -/
def stuckRepeatMsg : String :=
  "I seem to be stuck repeating the same action. Could you rephrase or clarify your request?"

/-- Modelled from the spec (§4.2.5): the fixed step-limit fallback. -/
def stepLimitMsg : String :=
  "I could not reach a final answer within the step limit."

/-- Modelled from the spec (§4.2.4): the fixed diagnostic observation
appended when a model turn cannot be parsed. -/
def unparsedDiag : String :=
  "Observation: model output not understood; reply with a single JSON action or a Final Answer."

/-- One record per Action decision of a step run: the tool, the parsed
arguments, the arguments after safety defaults, the canonical signature,
and whether the tool was actually invoked (`false` exactly for the
occurrence that triggers the anti-repetition abort). -/
structure ExecRec where
  tool : String
  rawArgs : Dict
  resolved : Dict
  sig : String
  executed : Bool

/-- Result of a step run: the returned string, the number of loop
iterations (model round trips) performed, and the Action trace. -/
structure StepOut where
  answer : String
  iters : Nat
  trace : List ExecRec

/-- The window is full (3 entries) and all 3 signatures are identical. -/
def isTriple (w : List String) : Bool :=
  match w with
  | [a, b, c] => a == b && b == c
  | _ => false

/-- Modelled from the spec (§4.2): the step-based loop.  State: the
accumulated observation text blocks and the sliding window of the last
3 action signatures (most recent first).  Each iteration asks the model
(an oracle over the observation history), parses a Decision, and either
returns the final text, records a diagnostic and continues, or — for an
Action — applies safety defaults, pushes the canonical signature onto
the window, aborts with the stuck-repeating message if the window holds
3 identical signatures, and otherwise executes the tool (§4.3 executor)
and appends the serialized observation.  The fuel is the remaining step
budget. -/
def stepRunAux (loads : String → Option JVal) (reg : Registry)
    (model : List String → String) :
    Nat → List String → List String → StepOut
  | 0, _, _ => ⟨stepLimitMsg, 0, []⟩
  | fuel + 1, obs, win =>
    match parseDecision loads (model obs) with
    | .Final t => ⟨t, 1, []⟩
    | .Unparsed =>
      let r := stepRunAux loads reg model fuel (obs ++ [unparsedDiag]) win
      ⟨r.answer, r.iters + 1, r.trace⟩
    | .Action tool args =>
      let resolved := applyDefaults tool args
      let sig := canonicalSig tool resolved
      let win' := (sig :: win).take 3
      if isTriple win' then
        ⟨stuckRepeatMsg, 1, [⟨tool, args, resolved, sig, false⟩]⟩
      else
        let v := execToolStr reg tool (.obj resolved)
        let r := stepRunAux loads reg model fuel
          (obs ++ ["Observation: " ++ stringify v]) win'
        ⟨r.answer, r.iters + 1, ⟨tool, args, resolved, sig, true⟩ :: r.trace⟩

/-- Modelled from the spec (§4.2): `run` for the step variant — empty
observation history, empty signature window, `max_steps` budget. -/
def stepRun (loads : String → Option JVal) (reg : Registry)
    (model : List String → String) (maxSteps : Nat) : StepOut :=
  stepRunAux loads reg model maxSteps [] []

/-! ## Claim-side definitions (stated from the specification's words,
for comparison with the code-derived definitions above) -/

/-- The Action-acceptance shape exactly as the C5 claim words it: "a
single-element list containing one mapping, or a mapping directly
containing both a `tool` key and an `args` key whose value is a
mapping". -/
def claimC5Shape (v : JVal) : Prop :=
  (∃ d, v = .arr [.obj d]) ∨
  (∃ d, v = .obj d ∧ (dictGet d "tool").isSome ∧ ∃ a, dictGet d "args" = some (.obj a))

/-- Position of the earliest occurrence of any of the given markers
(the C6 claim's "first occurrence of any leakage marker from the fixed
set"). -/
def earliestCut : List (List Char) → List Char → Option Nat
  | [], _ => none
  | s :: rest, b =>
    match firstIdx s b, earliestCut rest b with
    | none, r => r
    | some q, none => some q
    | some q, some r => some (min q r)

/-- Truncation at (not including) the earliest marker occurrence,
whitespace-stripped — the C6 claim's description of the splitter loop. -/
def truncSpec (markers : List (List Char)) (b : List Char) : List Char :=
  match earliestCut markers b with
  | none => b
  | some p => stripChars (b.take p)

/-- A well-formed leakage marker: non-empty, starts with a newline,
contains no other newline, and ends in a non-whitespace character.
All six of `leakMarkers` satisfy this. -/
def validMarker (s : List Char) : Bool :=
  s.head? == some '\n' &&
  s.tail.all (fun c => !(c == '\n')) &&
  (match s.getLast? with
   | some e => !pyIsSpace e
   | none => false)

/-! ## Concrete instances used by the witness theorems -/

/-- A `json.loads` oracle for witnesses: parses the single text `"ACT"`
into an `openmeteo_forecast` action with empty arguments and fails on
everything else. -/
def demoLoads : String → Option JVal := fun s =>
  if s = "ACT" then
    some (.obj [("tool", .str "openmeteo_forecast"), ("args", .obj [])])
  else none

/-- A `json.loads` oracle that always raises. -/
def demoLoadsNone : String → Option JVal := fun _ => none

/-- A `json.loads` oracle for witnesses: parses the single text
`"[1, 2]"` into a number array and fails on everything else. -/
def demoLoadsArr : String → Option JVal := fun s =>
  if s = "[1, 2]" then some (.arr [.num 1, .num 2]) else none

/-- A model that always proposes the same action text. -/
def demoModel : List String → String := fun _ => "ACT"

/-- A model whose output never parses. -/
def demoModelNoise : List String → String := fun _ => "zzz"

/-- Plan-variant oracles that never produce a plan or a final answer. -/
def demoPlanO : PlanOracles :=
  ⟨fun _ => "p", fun _ _ => "c", fun _ => "no"⟩

/-- A registry with a single always-raising tool. -/
def demoReg : Registry := [("boom", fun _ => .error "kaboom")]

end AgentCore

namespace AgentCore

/-! # Lemmas and claim theorems -/

/-! ## Dictionary lemmas -/

theorem dictGet_append (d1 d2 : Dict) (k : String) :
    dictGet (d1 ++ d2) k =
      match dictGet d1 k with
      | some v => some v
      | none => dictGet d2 k := by
  induction d1 with
  | nil => simp [dictGet]
  | cons kv rest ih =>
    obtain ⟨k', v⟩ := kv
    by_cases h : k' = k <;> simp [dictGet, h, ih]

theorem dictGet_setDefault_self (d : Dict) (k : String) (v : JVal)
    (h : dictGet d k = none) :
    dictGet (dictSetDefault d k v) k = some v := by
  simp [dictSetDefault, h, dictGet_append, dictGet]

theorem dictGet_setDefault_other (d : Dict) (k : String) (v : JVal)
    (k' : String) (h : k' ≠ k) :
    dictGet (dictSetDefault d k v) k' = dictGet d k' := by
  unfold dictSetDefault
  split
  · rfl
  · rw [dictGet_append]
    cases hg : dictGet d k' with
    | some w => rfl
    | none => simp [dictGet, Ne.symm h]

theorem applyDefaults_units (tool : String) (args : Dict)
    (h : dictGet args "units" = none) :
    dictGet (applyDefaults tool args) "units" = some (.str "metric") := by
  unfold applyDefaults
  have h1 : dictGet (dictSetDefault args "units" (.str "metric")) "units"
      = some (.str "metric") := dictGet_setDefault_self _ _ _ h
  split
  · rw [dictGet_setDefault_other _ _ _ _ (by decide), h1]
  · exact h1

theorem applyDefaults_targetDate (tool : String) (args : Dict)
    (ht : tool ∈ dateSensitiveTools)
    (h : dictGet args "target_date" = none) :
    dictGet (applyDefaults tool args) "target_date" = some (.str "oggi") := by
  unfold applyDefaults
  have h1 : dictGet (dictSetDefault args "units" (.str "metric")) "target_date"
      = none := by
    rw [dictGet_setDefault_other _ _ _ _ (by decide)]; exact h
  split
  · exact dictGet_setDefault_self _ _ _ h1
  · exact absurd ht (by assumption)

/-! ## Step-loop lemmas -/

theorem stepRunAux_iters_le (loads : String → Option JVal) (reg : Registry)
    (model : List String → String) :
    ∀ fuel obs win, (stepRunAux loads reg model fuel obs win).iters ≤ fuel := by
  intro fuel
  induction fuel with
  | zero => intro obs win; simp [stepRunAux]
  | succ n ih =>
    intro obs win
    unfold stepRunAux
    cases parseDecision loads (model obs) with
    | Final t => simp
    | Unparsed => simpa using Nat.succ_le_succ (ih _ _)
    | Action tool args =>
      dsimp only
      split
      · simp
      · simpa using Nat.succ_le_succ (ih _ _)

theorem stepRunAux_all_unparsed (loads : String → Option JVal)
    (reg : Registry) (model : List String → String)
    (h : ∀ obs, parseDecision loads (model obs) = .Unparsed) :
    ∀ fuel obs win,
      (stepRunAux loads reg model fuel obs win).answer = stepLimitMsg ∧
      (stepRunAux loads reg model fuel obs win).iters = fuel := by
  intro fuel
  induction fuel with
  | zero => intro obs win; simp [stepRunAux]
  | succ n ih =>
    intro obs win
    unfold stepRunAux
    rw [h obs]
    simpa using ih (obs ++ [unparsedDiag]) win

theorem stepRunAux_trace_resolved (loads : String → Option JVal)
    (reg : Registry) (model : List String → String) :
    ∀ fuel obs win r, r ∈ (stepRunAux loads reg model fuel obs win).trace →
      r.resolved = applyDefaults r.tool r.rawArgs := by
  intro fuel
  induction fuel with
  | zero => intro obs win r hr; simp [stepRunAux] at hr
  | succ n ih =>
    intro obs win r hr
    rw [stepRunAux] at hr
    rcases hd : parseDecision loads (model obs) with _ | ⟨tool, args⟩ | _ <;>
      rw [hd] at hr
    · simp at hr
    · dsimp only at hr
      split at hr
      · simp at hr
        subst hr
        rfl
      · rcases List.mem_cons.mp hr with h1 | h1
        · subst h1; rfl
        · exact ih _ _ _ h1
    · exact ih _ _ _ hr

/-! ## Plan-loop lemmas -/

theorem planRunAux_count (loads : String → Option JVal) (reg : Registry)
    (o : PlanOracles) :
    ∀ fuel obs plan ans n,
      planRunAux loads reg o fuel obs plan = .ok (ans, n) → n ≤ fuel := by
  intro fuel
  induction fuel with
  | zero =>
    intro obs plan ans n h
    rw [planRunAux] at h
    rcases he : execPlan loads reg o plan obs with _ | obs' <;> rw [he] at h <;>
      dsimp only at h
    · exact absurd h (by simp)
    · rcases hf : cleanFinalStr (o.askFinal obs') with _ | f <;> rw [hf] at h <;>
        simp at h <;> omega
  | succ m ih =>
    intro obs plan ans n h
    rw [planRunAux] at h
    rcases he : execPlan loads reg o plan obs with _ | obs' <;> rw [he] at h <;>
      dsimp only at h
    · exact absurd h (by simp)
    · rcases hf : cleanFinalStr (o.askFinal obs') with _ | f <;> rw [hf] at h
      · rcases hr : planRunAux loads reg o m obs'
            (tryLoadJsonArray loads (o.askPlan obs')) with _ | r <;>
          rw [hr] at h <;> simp [Except.map] at h
        obtain ⟨-, hn⟩ := h
        have := ih _ _ _ _ hr
        omega
      · simp at h
        omega

theorem planRunAux_no_final (loads : String → Option JVal) (reg : Registry)
    (o : PlanOracles) (hnf : ∀ obs, cleanFinalStr (o.askFinal obs) = none) :
    ∀ fuel obs plan ans n,
      planRunAux loads reg o fuel obs plan = .ok (ans, n) →
      ans = replanFallbackMsg ∧ n = fuel := by
  intro fuel
  induction fuel with
  | zero =>
    intro obs plan ans n h
    rw [planRunAux] at h
    rcases he : execPlan loads reg o plan obs with _ | obs' <;> rw [he] at h <;>
      dsimp only at h
    · exact absurd h (by simp)
    · rw [hnf obs'] at h
      dsimp only at h
      simp at h
      exact ⟨h.1.symm, h.2.symm⟩
  | succ m ih =>
    intro obs plan ans n h
    rw [planRunAux] at h
    rcases he : execPlan loads reg o plan obs with _ | obs' <;> rw [he] at h <;>
      dsimp only at h
    · exact absurd h (by simp)
    · rw [hnf obs'] at h
      dsimp only at h
      rcases hr : planRunAux loads reg o m obs'
          (tryLoadJsonArray loads (o.askPlan obs')) with _ | r <;>
        rw [hr] at h <;> simp [Except.map] at h
      obtain ⟨ha, hn⟩ := h
      obtain ⟨ha', hn'⟩ := ih _ _ _ _ hr
      exact ⟨ha ▸ ha', by omega⟩

theorem planRunAux_shape (loads : String → Option JVal) (reg : Registry)
    (o : PlanOracles) :
    ∀ fuel obs plan ans n,
      planRunAux loads reg o fuel obs plan = .ok (ans, n) →
      ans = replanFallbackMsg ∨ ∃ t, cleanFinalStr t = some ans := by
  intro fuel
  induction fuel with
  | zero =>
    intro obs plan ans n h
    rw [planRunAux] at h
    rcases he : execPlan loads reg o plan obs with _ | obs' <;> rw [he] at h <;>
      dsimp only at h
    · exact absurd h (by simp)
    · rcases hf : cleanFinalStr (o.askFinal obs') with _ | f <;> rw [hf] at h <;>
        simp at h
      · exact Or.inl h.1.symm
      · exact Or.inr ⟨o.askFinal obs', h.1 ▸ hf⟩
  | succ m ih =>
    intro obs plan ans n h
    rw [planRunAux] at h
    rcases he : execPlan loads reg o plan obs with _ | obs' <;> rw [he] at h <;>
      dsimp only at h
    · exact absurd h (by simp)
    · rcases hf : cleanFinalStr (o.askFinal obs') with _ | f <;> rw [hf] at h
      · rcases hr : planRunAux loads reg o m obs'
            (tryLoadJsonArray loads (o.askPlan obs')) with _ | r <;>
          rw [hr] at h <;> simp [Except.map] at h
        obtain ⟨ha, -⟩ := h
        obtain hcase := ih _ _ _ _ hr
        rcases hcase with h1 | ⟨t, h1⟩
        · exact Or.inl (ha ▸ h1)
        · exact Or.inr ⟨t, ha ▸ h1⟩
      · simp at h
        exact Or.inr ⟨o.askFinal obs', h.1 ▸ hf⟩

/-! ## `_clean_final` non-emptiness -/

theorem cleanFinal_some_ne_nil {l r : List Char} (h : cleanFinal l = some r) :
    r ≠ [] := by
  unfold cleanFinal at h
  rcases hs : finalSearch l with _ | rest <;> rw [hs] at h <;> dsimp only at h
  · exact absurd h (by simp)
  · split at h
    · exact absurd h (by simp)
    · rename_i hne
      injection h with h'
      subst h'
      intro hc
      exact hne (by rw [hc]; rfl)

theorem cleanFinalStr_some_ne_empty {s t : String} (h : cleanFinalStr s = some t) :
    t ≠ "" := by
  unfold cleanFinalStr at h
  rcases hc : cleanFinal s.data with _ | r <;> rw [hc] at h
  · exact absurd h (by simp)
  · have ht : t = String.mk r := by
      injection h with h'
      exact h'.symm
    intro hemp
    apply cleanFinal_some_ne_nil hc
    have : (String.mk r).data = ("" : String).data := by rw [← ht, hemp]
    simpa using this

/-! ## Substring-search lemmas (C6) -/

theorem firstIdx_some_occurs {s b : List Char} :
    ∀ {i}, firstIdx s b = some i → OccursAt s b i := by
  induction b with
  | nil =>
    intro i h
    unfold firstIdx at h
    split at h
    · rename_i hp
      injection h with h'
      subst h'
      exact (List.isPrefixOf_iff_prefix.mp hp :)
    · exact Option.noConfusion h
  | cons c t ih =>
    intro i h
    unfold firstIdx at h
    split at h
    · rename_i hp
      injection h with h'
      subst h'
      exact (List.isPrefixOf_iff_prefix.mp hp :)
    · rcases hr : firstIdx s t with _ | j <;> rw [hr] at h
      · exact Option.noConfusion h
      · injection h with h'
        subst h'
        exact ih hr

theorem firstIdx_some_least {s b : List Char} :
    ∀ {i}, firstIdx s b = some i → ∀ j < i, ¬ OccursAt s b j := by
  induction b with
  | nil =>
    intro i h j hj
    unfold firstIdx at h
    split at h
    · injection h with h'
      omega
    · exact Option.noConfusion h
  | cons c t ih =>
    intro i h j hj
    unfold firstIdx at h
    split at h
    · injection h with h'
      omega
    · rename_i hp
      rcases hr : firstIdx s t with _ | m <;> rw [hr] at h
      · exact Option.noConfusion h
      · injection h with h'
        subst h'
        cases j with
        | zero =>
          intro hocc
          exact hp (List.isPrefixOf_iff_prefix.mpr hocc)
        | succ j' =>
          exact ih hr j' (by simpa using hj)

theorem firstIdx_none_not_occurs {s b : List Char}
    (h : firstIdx s b = none) : ∀ j, ¬ OccursAt s b j := by
  induction b with
  | nil =>
    intro j hocc
    unfold firstIdx at h
    split at h
    · exact Option.noConfusion h
    · rename_i hp
      unfold OccursAt at hocc
      rw [List.drop_nil] at hocc
      exact hp (List.isPrefixOf_iff_prefix.mpr hocc)
  | cons c t ih =>
    intro j hocc
    unfold firstIdx at h
    split at h
    · exact Option.noConfusion h
    · rename_i hp
      rcases hr : firstIdx s t with _ | m <;> rw [hr] at h
      · cases j with
        | zero => exact hp (List.isPrefixOf_iff_prefix.mpr hocc)
        | succ j' => exact ih hr j' hocc
      · exact Option.noConfusion h

theorem firstIdx_eq_none_of {s b : List Char}
    (h : ∀ j, ¬ OccursAt s b j) : firstIdx s b = none := by
  cases hr : firstIdx s b with
  | none => rfl
  | some i => exact absurd (firstIdx_some_occurs hr) (h i)

theorem firstIdx_eq_some_of {s b : List Char} {p : Nat}
    (hocc : OccursAt s b p) (hleast : ∀ j < p, ¬ OccursAt s b j) :
    firstIdx s b = some p := by
  cases hr : firstIdx s b with
  | none => exact absurd hocc (firstIdx_none_not_occurs hr p)
  | some i =>
    have hi := firstIdx_some_occurs hr
    rcases Nat.lt_trichotomy i p with h1 | h1 | h1
    · exact absurd hi (hleast i h1)
    · rw [h1]
    · exact absurd hocc (firstIdx_some_least hr p h1)

/-! ## Whitespace-strip lemmas (C6) -/

theorem dropWhile_self_of_head {p : Char → Bool} {l : List Char}
    (h : ∀ c, l.head? = some c → p c = false) : l.dropWhile p = l := by
  cases l with
  | nil => rfl
  | cons c t =>
    have := h c rfl
    simp [List.dropWhile, this]

theorem dropWhile_idem {p : Char → Bool} (l : List Char) :
    (l.dropWhile p).dropWhile p = l.dropWhile p := by
  induction l with
  | nil => rfl
  | cons c t ih =>
    by_cases h : p c = true
    · simp [List.dropWhile, h, ih]
    · have hf : p c = false := by
        revert h
        cases p c <;> simp
      simp [List.dropWhile, hf]

theorem prefix_dropTrailingWs (l : List Char) : dropTrailingWs l <+: l := by
  unfold dropTrailingWs
  have h : l.reverse.dropWhile pyIsSpace <:+ l.reverse :=
    List.dropWhile_suffix _
  have h2 := List.reverse_prefix.mpr h
  rwa [List.reverse_reverse] at h2

theorem dropWhile_length_ge {p : Char → Bool} :
    ∀ (l : List Char) (k : Nat) (c : Char), l[k]? = some c → p c = false →
      l.length - k ≤ (l.dropWhile p).length := by
  intro l
  induction l with
  | nil =>
    intro k c h
    simp at h
  | cons a t ih =>
    intro k c h hc
    by_cases ha : p a = true
    · cases k with
      | zero =>
        rw [List.getElem?_cons_zero] at h
        injection h with h'
        subst h'
        rw [ha] at hc
        exact Bool.noConfusion hc
      | succ k' =>
        rw [List.getElem?_cons_succ] at h
        have hrec := ih k' c h hc
        have hlen : (List.dropWhile p (a :: t)).length
            = (List.dropWhile p t).length := by
          simp [List.dropWhile, ha]
        rw [hlen]
        simp only [List.length_cons]
        omega
    · have haf : p a = false := by
        revert ha
        cases p a <;> simp
      rw [List.dropWhile_cons_of_neg (by simp [haf])]
      exact Nat.sub_le _ _

theorem dropTrailingWs_length_ge {l : List Char} {m : Nat} {c : Char}
    (h : l[m]? = some c) (hc : pyIsSpace c = false) :
    m + 1 ≤ (dropTrailingWs l).length := by
  have hm : m < l.length := (List.getElem?_eq_some.mp h).1
  have hrev : l.reverse[l.length - 1 - m]? = some c := by
    have hb : l.length - 1 - m < l.reverse.length := by
      rw [List.length_reverse]
      omega
    rw [List.getElem?_eq_getElem hb]
    rw [List.getElem_reverse]
    have he : l.length - 1 - (l.length - 1 - m) = m := by omega
    rw [List.getElem?_eq_some] at h
    obtain ⟨h1, h2⟩ := h
    simp only [he]
    rw [h2]
  have := dropWhile_length_ge (p := pyIsSpace) l.reverse _ c hrev hc
  rw [List.length_reverse] at this
  unfold dropTrailingWs
  rw [List.length_reverse]
  omega

theorem stripChars_eq_dropTrailing {l : List Char}
    (h : ∀ c, l.head? = some c → pyIsSpace c = false) :
    stripChars l = dropTrailingWs l := by
  unfold stripChars
  rw [dropWhile_self_of_head h]

theorem stripChars_no_leading (l : List Char) :
    ∀ c, (stripChars l).head? = some c → pyIsSpace c = false := by
  intro c hc
  have hpre : stripChars l <+: l.dropWhile pyIsSpace := by
    unfold stripChars
    exact prefix_dropTrailingWs _
  have hhead : (l.dropWhile pyIsSpace).head? = some c := by
    obtain ⟨t, ht⟩ := hpre
    rw [← ht]
    rcases hs : stripChars l with _ | ⟨x, xs⟩
    · rw [hs] at hc
      exact Option.noConfusion hc
    · rw [hs] at hc
      simpa using hc
  have hnd := List.head?_dropWhile_not pyIsSpace l
  rw [hhead] at hnd
  exact hnd

/-! ## Occurrence-transfer lemmas (C6) -/

theorem prefix_drop {b b0 : List Char} (h : b <+: b0) (j : Nat) :
    b.drop j <+: b0.drop j := by
  obtain ⟨t, rfl⟩ := h
  rw [List.drop_append_eq_append_drop]
  exact ⟨t.drop (j - b.length), rfl⟩

theorem prefix_take_eq {b b0 : List Char} (h : b <+: b0) {n : Nat}
    (hn : n ≤ b.length) : b.take n = b0.take n := by
  obtain ⟨t, rfl⟩ := h
  rw [List.take_append_eq_append_take]
  have hz : n - b.length = 0 := by omega
  rw [hz]
  simp

theorem occurs_mono {s b b0 : List Char} (h : b <+: b0) {j : Nat}
    (hocc : OccursAt s b j) : OccursAt s b0 j :=
  hocc.trans (prefix_drop h j)

theorem occurs_length {s b : List Char} (hne : s ≠ []) {j : Nat}
    (hocc : OccursAt s b j) : j + s.length ≤ b.length := by
  have h1 := hocc.length_le
  rw [List.length_drop] at h1
  rcases Nat.le_total j b.length with h2 | h2
  · omega
  · exfalso
    have hd : b.drop j = [] := List.drop_eq_nil_of_le h2
    unfold OccursAt at hocc
    rw [hd] at hocc
    exact hne (List.prefix_nil.mp hocc)

theorem occurs_of_prefix {s b b0 : List Char} (hb : b <+: b0) {p : Nat}
    (hocc : OccursAt s b0 p) (hlen : p + s.length ≤ b.length) :
    OccursAt s b p := by
  apply List.prefix_iff_eq_take.mpr
  rw [prefix_take_eq (prefix_drop hb p) (by rw [List.length_drop]; omega)]
  exact List.prefix_iff_eq_take.mp hocc

theorem occurs_getElem {s b0 : List Char} {q : Nat} (hocc : OccursAt s b0 q) :
    ∀ t, t < s.length → b0[q + t]? = s[t]? := by
  intro t ht
  unfold OccursAt at hocc
  rw [List.prefix_iff_eq_take] at hocc
  conv_rhs => rw [hocc]
  rw [List.getElem?_take]
  rw [if_pos ht, List.getElem?_drop]

/-! ## Leakage-marker shape lemmas (C6) -/

theorem validMarker_ne_nil {s : List Char} (h : validMarker s = true) :
    s ≠ [] := by
  intro he
  subst he
  simp [validMarker] at h

theorem validMarker_head {s : List Char} (h : validMarker s = true) :
    s[0]? = some '\n' := by
  unfold validMarker at h
  cases s with
  | nil => simp at h
  | cons c t =>
    simp only [Bool.and_eq_true, beq_iff_eq] at h
    obtain ⟨⟨h1, -⟩, -⟩ := h
    simp at h1
    rw [List.getElem?_cons_zero, h1]

theorem validMarker_interior {s : List Char} (h : validMarker s = true) :
    ∀ t, 1 ≤ t → t < s.length → s[t]? ≠ some '\n' := by
  unfold validMarker at h
  cases s with
  | nil => simp at h
  | cons c tl =>
    simp only [Bool.and_eq_true] at h
    obtain ⟨⟨-, h2⟩, -⟩ := h
    intro t ht1 ht2 hcon
    rcases t with _ | t'
    · omega
    · rw [List.getElem?_cons_succ] at hcon
      have hmem : '\n' ∈ tl := by
        have := List.getElem?_eq_some.mp hcon
        obtain ⟨hb, he⟩ := this
        rw [← he]
        exact List.getElem_mem hb
      have := List.all_eq_true.mp h2 '\n' hmem
      simp at this

theorem validMarker_last {s : List Char} (h : validMarker s = true) :
    ∃ e, s[s.length - 1]? = some e ∧ pyIsSpace e = false := by
  have hne := validMarker_ne_nil h
  unfold validMarker at h
  simp only [Bool.and_eq_true] at h
  obtain ⟨-, h3⟩ := h
  rcases hg : s.getLast? with _ | e
  · rw [hg] at h3
    simp at h3
  · rw [hg] at h3
    refine ⟨e, ?_, ?_⟩
    · rw [← List.getLast?_eq_getElem?]
      exact hg
    · simpa using h3

theorem marker_no_overlap {s1 s2 b0 : List Char} {p q : Nat}
    (hv1 : validMarker s1 = true) (hv2 : validMarker s2 = true)
    (h1 : OccursAt s1 b0 p) (h2 : OccursAt s2 b0 q) (hpq : p < q) :
    p + s1.length ≤ q := by
  by_contra hcon
  have ht : q - p < s1.length := by omega
  have ht1 : 1 ≤ q - p := by omega
  have he1 : b0[q]? = s1[q - p]? := by
    have := occurs_getElem h1 (q - p) ht
    rw [← this]
    congr 1
    omega
  have he2 : b0[q]? = some '\n' := by
    have hlen2 : 0 < s2.length := by
      have := validMarker_ne_nil hv2
      cases s2 with
      | nil => exact absurd rfl this
      | cons c t => simp
    have := occurs_getElem h2 0 hlen2
    rw [Nat.add_zero] at this
    rw [this]
    exact validMarker_head hv2
  rw [he2] at he1
  exact validMarker_interior hv1 (q - p) ht1 ht he1.symm

/-! ## Earliest-cut lemmas (C6) -/

theorem earliestCut_none {L : List (List Char)} {b : List Char}
    (h : earliestCut L b = none) : ∀ s ∈ L, firstIdx s b = none := by
  induction L with
  | nil => intro s hs; simp at hs
  | cons s0 L' ih =>
    intro s hs
    unfold earliestCut at h
    rcases hf : firstIdx s0 b with _ | q <;> rw [hf] at h
    · rcases List.mem_cons.mp hs with rfl | hs'
      · exact hf
      · exact ih h s hs'
    · rcases he : earliestCut L' b with _ | r <;> rw [he] at h <;>
        exact Option.noConfusion h

theorem earliestCut_spec {L : List (List Char)} {b : List Char} {p : Nat}
    (h : earliestCut L b = some p) :
    (∃ s ∈ L, OccursAt s b p) ∧
    (∀ s ∈ L, ∀ j, OccursAt s b j → p ≤ j) := by
  induction L generalizing p with
  | nil => simp [earliestCut] at h
  | cons s0 L' ih =>
    unfold earliestCut at h
    rcases hf : firstIdx s0 b with _ | q <;> rw [hf] at h
    · obtain ⟨⟨s, hs, hocc⟩, hmin⟩ := ih h
      refine ⟨⟨s, List.mem_cons_of_mem _ hs, hocc⟩, ?_⟩
      intro s' hs' j hocc'
      rcases List.mem_cons.mp hs' with rfl | hmem
      · exact absurd hocc' (firstIdx_none_not_occurs hf j)
      · exact hmin s' hmem j hocc'
    · rcases he : earliestCut L' b with _ | r <;> rw [he] at h <;>
        injection h with h'
      · subst h'
        refine ⟨⟨s0, List.mem_cons_self _ _, firstIdx_some_occurs hf⟩, ?_⟩
        intro s' hs' j hocc'
        rcases List.mem_cons.mp hs' with rfl | hmem
        · by_contra hlt
          exact firstIdx_some_least hf j (by omega) hocc'
        · exact absurd hocc'
            (firstIdx_none_not_occurs (earliestCut_none he s' hmem) j)
      · subst h'
        obtain ⟨⟨s, hs, hocc⟩, hmin⟩ := ih he
        rcases Nat.le_total q r with hle | hle
        · rw [min_eq_left hle]
          refine ⟨⟨s0, List.mem_cons_self _ _, firstIdx_some_occurs hf⟩, ?_⟩
          intro s' hs' j hocc'
          rcases List.mem_cons.mp hs' with rfl | hmem
          · by_contra hlt
            exact firstIdx_some_least hf j (by omega) hocc'
          · have := hmin s' hmem j hocc'
            omega
        · rw [min_eq_right hle]
          refine ⟨⟨s, List.mem_cons_of_mem _ hs, hocc⟩, ?_⟩
          intro s' hs' j hocc'
          rcases List.mem_cons.mp hs' with rfl | hmem
          · by_contra hlt
            exact firstIdx_some_least hf j (by omega) hocc'
          · exact hmin s' hmem j hocc'

theorem truncLoop_id {b : List Char} :
    ∀ {L : List (List Char)}, (∀ s ∈ L, firstIdx s b = none) →
      truncLoop L b = b := by
  intro L
  induction L with
  | nil => intro _; rfl
  | cons s0 L' ih =>
    intro h
    unfold truncLoop truncStep
    rw [h s0 (List.mem_cons_self _ _)]
    exact ih fun s hs => h s (List.mem_cons_of_mem _ hs)

/-! ## The splitter-loop / earliest-truncation equivalence (C6) -/

theorem head?_take {l : List Char} {n : Nat} (hn : 1 ≤ n) :
    (l.take n).head? = l.head? := by
  cases l with
  | nil => simp
  | cons c t =>
    cases n with
    | zero => omega
    | succ m => simp

theorem head?_of_prefix {b b0 : List Char} (h : b <+: b0) (hne : b ≠ []) :
    b.head? = b0.head? := by
  obtain ⟨t, rfl⟩ := h
  cases b with
  | nil => exact absurd rfl hne
  | cons c t1 => rfl

/-- Processing the markers one at a time, each pass truncating at that
marker's first occurrence and re-stripping (the `_clean_final` loop),
reaches exactly the stripped prefix before the globally earliest
occurrence `p`, from any intermediate body `b` that is a prefix of the
original `b0` still containing the earliest occurrence in full. -/
theorem truncLoop_phase {b0 : List Char} {p : Nat} {sstar : List Char}
    (hb0head : ∀ c, b0.head? = some c → pyIsSpace c = false)
    (hvAll : ∀ s ∈ leakMarkers, validMarker s = true)
    (hsM : sstar ∈ leakMarkers)
    (hocc : OccursAt sstar b0 p)
    (hmin : ∀ s ∈ leakMarkers, ∀ j, OccursAt s b0 j → p ≤ j)
    (huniq : ∀ s ∈ leakMarkers, s ≠ sstar → ¬ OccursAt s b0 p) :
    ∀ L, (∀ s ∈ L, s ∈ leakMarkers) → sstar ∈ L →
    ∀ b, b <+: b0 → p + sstar.length ≤ b.length →
      truncLoop L b = stripChars (b0.take p) := by
  have hvs : validMarker sstar = true := hvAll sstar hsM
  have hsne : sstar ≠ [] := validMarker_ne_nil hvs
  have hslen : 1 ≤ sstar.length := List.length_pos.mpr hsne
  have hp1 : 1 ≤ p := by
    by_contra hc
    have hp0 : p = 0 := by omega
    subst hp0
    have h0 : b0[0]? = some '\n' := by
      have hg := occurs_getElem hocc 0 (by omega)
      rw [Nat.add_zero] at hg
      rw [hg]
      exact validMarker_head hvs
    have hh : b0.head? = some '\n' := by
      rw [List.head?_eq_getElem?]
      exact h0
    have := hb0head '\n' hh
    simp [pyIsSpace] at this
  have hpb0 : p + sstar.length ≤ b0.length := occurs_length hsne hocc
  have hRhead : ∀ c, (b0.take p).head? = some c → pyIsSpace c = false := by
    intro c hc
    apply hb0head
    rw [← head?_take hp1]
    exact hc
  have hRdt : stripChars (b0.take p) = dropTrailingWs (b0.take p) :=
    stripChars_eq_dropTrailing hRhead
  have hRsub : stripChars (b0.take p) <+: b0 := by
    rw [hRdt]
    exact (prefix_dropTrailingWs _).trans (List.take_prefix _ _)
  have hRlen : (stripChars (b0.take p)).length ≤ p := by
    have h1 : stripChars (b0.take p) <+: b0.take p := by
      rw [hRdt]
      exact prefix_dropTrailingWs _
    have h2 := h1.length_le
    rw [List.length_take] at h2
    omega
  have hRnone : ∀ s' ∈ leakMarkers, firstIdx s' (stripChars (b0.take p))
      = none := by
    intro s' hs'
    apply firstIdx_eq_none_of
    intro j hocc'
    have hocc0 : OccursAt s' b0 j := occurs_mono hRsub hocc'
    have hs'ne : s' ≠ [] := validMarker_ne_nil (hvAll s' hs')
    have hlen' := occurs_length hs'ne hocc'
    have hpj := hmin s' hs' j hocc0
    have h1le : 1 ≤ s'.length := List.length_pos.mpr hs'ne
    omega
  intro L
  induction L with
  | nil =>
    intro _ hstar
    simp at hstar
  | cons s1 L' ih =>
    intro hLsub hstar b hb hblen
    have hbne : b ≠ [] := by
      intro he
      rw [he] at hblen
      simp at hblen
      omega
    have hbhead : ∀ c, b.head? = some c → pyIsSpace c = false := by
      intro c hc
      apply hb0head
      rw [← head?_of_prefix hb hbne]
      exact hc
    by_cases hss : s1 = sstar
    · subst hss
      have hoccb : OccursAt s1 b p := occurs_of_prefix hb hocc hblen
      have hleast : ∀ j < p, ¬ OccursAt s1 b j := by
        intro j hj hocc'
        have := hmin s1 hsM j (occurs_mono hb hocc')
        omega
      unfold truncLoop truncStep
      rw [firstIdx_eq_some_of hoccb hleast]
      show truncLoop L' (stripChars (b.take p)) = stripChars (b0.take p)
      rw [prefix_take_eq hb (by omega)]
      exact truncLoop_id fun s' hs' =>
        hRnone s' (hLsub s' (List.mem_cons_of_mem _ hs'))
    · have hstar' : sstar ∈ L' := by
        rcases List.mem_cons.mp hstar with h1 | h1
        · exact absurd h1.symm hss
        · exact h1
      have hs1M : s1 ∈ leakMarkers := hLsub s1 (List.mem_cons_self _ _)
      have hs1ne : s1 ≠ [] := validMarker_ne_nil (hvAll s1 hs1M)
      have hs1len : 1 ≤ s1.length := List.length_pos.mpr hs1ne
      unfold truncLoop truncStep
      cases hf : firstIdx s1 b with
      | none =>
        exact ih (fun s hs => hLsub s (List.mem_cons_of_mem _ hs)) hstar'
          b hb hblen
      | some q =>
        have hoccq : OccursAt s1 b q := firstIdx_some_occurs hf
        have hocc0 : OccursAt s1 b0 q := occurs_mono hb hoccq
        have hpq : p ≤ q := hmin s1 hs1M q hocc0
        have hqne : q ≠ p := by
          intro he
          subst he
          exact huniq s1 hs1M hss hocc0
        have hqgt : p < q := by omega
        have hqge : p + sstar.length ≤ q :=
          marker_no_overlap hvs (hvAll s1 hs1M) hocc hocc0 hqgt
        have hq1 : 1 ≤ q := by omega
        have htkhead : ∀ c, (b.take q).head? = some c →
            pyIsSpace c = false := by
          intro c hc
          apply hbhead
          rw [← head?_take hq1]
          exact hc
        have hsch : stripChars (b.take q) = dropTrailingWs (b.take q) :=
          stripChars_eq_dropTrailing htkhead
        have hpre2 : stripChars (b.take q) <+: b0 := by
          rw [hsch]
          exact (prefix_dropTrailingWs _).trans
            ((List.take_prefix _ _).trans hb)
        have hqlt : q + s1.length ≤ b.length := occurs_length hs1ne hoccq
        obtain ⟨e, he, hens⟩ := validMarker_last hvs
        have hbidx : b[p + sstar.length - 1]? = some e := by
          have hbeq : b = b0.take b.length := List.prefix_iff_eq_take.mp hb
          rw [hbeq, List.getElem?_take, if_pos (by omega)]
          have hb0idx := occurs_getElem hocc (sstar.length - 1) (by omega)
          rw [show p + sstar.length - 1 = p + (sstar.length - 1) from
            by omega]
          rw [hb0idx]
          exact he
        have htkidx : (b.take q)[p + sstar.length - 1]? = some e := by
          rw [List.getElem?_take, if_pos (by omega)]
          exact hbidx
        have hlen2 : p + sstar.length ≤ (stripChars (b.take q)).length := by
          rw [hsch]
          have := dropTrailingWs_length_ge htkidx hens
          omega
        exact ih (fun s hs => hLsub s (List.mem_cons_of_mem _ hs)) hstar'
          _ hpre2 hlen2

theorem stripChars_eq_nil_of_all {l : List Char}
    (h : ∀ c ∈ l, pyIsSpace c = true) : stripChars l = [] := by
  unfold stripChars
  rw [List.dropWhile_eq_nil_iff.mpr h]
  rfl

theorem stripChars_group1 (rest : List Char) :
    stripChars (finalGroup1 rest) = stripChars rest := by
  show stripChars (if (rest.dropWhile pyIsSpace).isEmpty
    then rest.drop (rest.length - 1) else rest.dropWhile pyIsSpace)
    = stripChars rest
  by_cases hw : (rest.dropWhile pyIsSpace).isEmpty = true
  · rw [if_pos hw]
    have hall : ∀ c ∈ rest, pyIsSpace c = true :=
      List.dropWhile_eq_nil_iff.mp (List.isEmpty_iff.mp hw)
    rw [stripChars_eq_nil_of_all fun c hc =>
      hall c (List.drop_subset _ _ hc)]
    rw [stripChars_eq_nil_of_all hall]
  · rw [if_neg hw]
    unfold stripChars
    rw [dropWhile_idem]

/-- The `_clean_final` splitter loop equals truncation at the earliest
marker occurrence (whitespace-stripped), on any body with no leading
whitespace. -/
theorem truncLoop_eq_truncSpec {b0 : List Char}
    (hb0head : ∀ c, b0.head? = some c → pyIsSpace c = false) :
    truncLoop leakMarkers b0 = truncSpec leakMarkers b0 := by
  unfold truncSpec
  cases he : earliestCut leakMarkers b0 with
  | none => exact truncLoop_id fun s hs => earliestCut_none he s hs
  | some p =>
    obtain ⟨⟨sstar, hsM, hocc⟩, hmin⟩ := earliestCut_spec he
    have hvAll : ∀ s ∈ leakMarkers, validMarker s = true := by decide
    have hpair : ∀ s1 ∈ leakMarkers, ∀ s2 ∈ leakMarkers, s1 ≠ s2 →
        s1.isPrefixOf s2 = false := by decide
    have huniq : ∀ s ∈ leakMarkers, s ≠ sstar → ¬ OccursAt s b0 p := by
      intro s hs hne hocc'
      rcases List.prefix_or_prefix_of_prefix hocc' hocc with h1 | h1
      · have := hpair s hs sstar hsM hne
        rw [List.isPrefixOf_iff_prefix.mpr h1] at this
        exact Bool.noConfusion this
      · have := hpair sstar hsM s hs (fun he2 => hne he2.symm)
        rw [List.isPrefixOf_iff_prefix.mpr h1] at this
        exact Bool.noConfusion this
    have hblen : p + sstar.length ≤ b0.length :=
      occurs_length (validMarker_ne_nil (hvAll sstar hsM)) hocc
    exact truncLoop_phase hb0head hvAll hsM hocc hmin huniq leakMarkers
      (fun s hs => hs) hsM b0 (List.prefix_refl _) hblen

/-! ## Anti-repetition window lemmas (C1) -/

/-- The window contents after the first `m` action signatures of `sigs`
have been pushed (most recent first) onto an initial window `win`. -/
def winAfter (win : List String) (sigs : List String) (m : Nat) : List String :=
  ((sigs.take m).reverse ++ win).take 3

theorem take3_append_take3 {α : Type} (X Y : List α) :
    (X ++ Y).take 3 = (X ++ Y.take 3).take 3 := by
  rw [List.take_append_eq_append_take, List.take_append_eq_append_take,
    List.take_take]
  have h : (3 - X.length) ⊓ 3 = 3 - X.length := by omega
  rw [h]

theorem winAfter_cons (win : List String) (s : String) (sigs : List String)
    (m : Nat) :
    winAfter win (s :: sigs) (m + 1) = winAfter ((s :: win).take 3) sigs m := by
  unfold winAfter
  rw [List.take_succ_cons, List.reverse_cons, List.append_assoc]
  rw [show [s] ++ win = s :: win from rfl]
  exact take3_append_take3 _ _

theorem winAfter_one (win : List String) (s : String) (sigs : List String) :
    winAfter win (s :: sigs) 1 = (s :: win).take 3 := by
  unfold winAfter
  simp

theorem winAfter_triple (win : List String) (sigs : List String) (i : Nat)
    (a : String) (h0 : sigs[i]? = some a) (h1 : sigs[i + 1]? = some a)
    (h2 : sigs[i + 2]? = some a) :
    winAfter win sigs (i + 3) = [a, a, a] := by
  have e1 : sigs.take (i + 3) = sigs.take i ++ [a, a, a] := by
    rw [show i + 3 = (i + 2) + 1 from rfl, List.take_succ, h2,
      show i + 2 = (i + 1) + 1 from rfl, List.take_succ, h1, List.take_succ, h0]
    simp
  unfold winAfter
  rw [e1, List.reverse_append, List.append_assoc]
  rw [show ([a, a, a].reverse : List String) = [a, a, a] from rfl]
  rw [show ([a, a, a] : List String) ++ ((sigs.take i).reverse ++ win)
      = [a, a, a] ++ ((sigs.take i).reverse ++ win) from rfl]
  rw [show (3 : Nat) = [a, a, a].length + 0 from rfl, List.take_append]
  simp

theorem mem_dropLast_cons {α : Type} {r a : α} {l : List α}
    (h : r ∈ (a :: l).dropLast) : r = a ∨ r ∈ l.dropLast := by
  cases l with
  | nil => simp at h
  | cons b t =>
    rw [show (a :: b :: t).dropLast = a :: (b :: t).dropLast from rfl] at h
    rcases List.mem_cons.mp h with h1 | h1
    · exact Or.inl h1
    · exact Or.inr h1

/-- The core anti-repetition facts of the step loop, for any starting
window: (1) no window reached before the last Action step is a full
window of identical signatures; (2) every Action step before the last
one executed its tool; (3) if the window after the last Action step is
a full identical window, the loop answered with the stuck-repeating
message and did not execute that last action. -/
theorem stepRunAux_window_facts (loads : String → Option JVal)
    (reg : Registry) (model : List String → String) :
    ∀ fuel obs win,
      (∀ k, k + 1 < ((stepRunAux loads reg model fuel obs win).trace.map
          ExecRec.sig).length →
        isTriple (winAfter win ((stepRunAux loads reg model fuel obs
          win).trace.map ExecRec.sig) (k + 1)) = false) ∧
      (∀ r ∈ (stepRunAux loads reg model fuel obs win).trace.dropLast,
        r.executed = true) ∧
      (∀ glast, (stepRunAux loads reg model fuel obs win).trace.getLast?
          = some glast →
        isTriple (winAfter win ((stepRunAux loads reg model fuel obs
          win).trace.map ExecRec.sig) ((stepRunAux loads reg model fuel obs
          win).trace.map ExecRec.sig).length) = true →
        (stepRunAux loads reg model fuel obs win).answer = stuckRepeatMsg ∧
          glast.executed = false) := by
  intro fuel
  induction fuel with
  | zero =>
    intro obs win
    refine ⟨?_, ?_, ?_⟩ <;> simp [stepRunAux]
  | succ n ih =>
    intro obs win
    unfold stepRunAux
    rcases hd : parseDecision loads (model obs) with t | ⟨tool, args⟩ | _
    · refine ⟨?_, ?_, ?_⟩ <;> simp
    · dsimp only
      split
      · rename_i htrip
        refine ⟨?_, ?_, ?_⟩
        · intro k hk
          simp at hk
        · intro r hr
          simp at hr
        · intro glast hg _
          simp at hg
          rw [← hg]
          exact ⟨rfl, rfl⟩
      · rename_i htrip
        set sg := canonicalSig tool (applyDefaults tool args) with hsg
        set win' := (sg :: win).take 3 with hwin
        set obs' := obs ++ ["Observation: " ++ stringify (execToolStr reg
          tool (.obj (applyDefaults tool args)))] with hobs
        set out' := stepRunAux loads reg model n obs' win' with hout
        have htripf : isTriple win' = false := by
          revert htrip
          cases isTriple win' <;> simp
        obtain ⟨ih1, ih2, ih3⟩ := ih obs' win'
        rw [← hout] at ih1 ih2 ih3
        refine ⟨?_, ?_, ?_⟩
        · intro k hk
          simp only [List.map_cons, List.length_cons] at hk
          cases k with
          | zero =>
            simp only [List.map_cons]
            rw [winAfter_one]
            exact htripf
          | succ m =>
            simp only [List.map_cons]
            rw [winAfter_cons]
            exact ih1 m (by omega)
        · intro r hr
          rcases mem_dropLast_cons hr with h1 | h1
          · rw [h1]
          · exact ih2 r h1
        · intro glast hg htrip2
          simp only [List.map_cons, List.length_cons] at htrip2
          rw [winAfter_cons, ← hwin] at htrip2
          cases htr : out'.trace with
          | nil =>
            rw [htr] at htrip2
            simp only [List.map_nil, List.length_nil] at htrip2
            unfold winAfter at htrip2
            simp only [List.take_nil, List.reverse_nil,
              List.nil_append] at htrip2
            have hw3 : win'.take 3 = win' := by
              rw [hwin, List.take_take]
              simp
            rw [hw3, htripf] at htrip2
            exact Bool.noConfusion htrip2
          | cons x xs =>
            have hg' : out'.trace.getLast? = some glast := by
              rw [htr]
              rw [htr] at hg
              exact List.getLast?_cons_cons ▸ hg
            exact ih3 glast hg' htrip2
    · dsimp only
      exact ih (obs ++ [unparsedDiag]) win

/-! ## Claim theorems -/

/-- C1: if the canonical signatures of three consecutive Action steps of
a step run coincide, the run returns the fixed stuck-repeating message,
the trace ends at that third occurrence (so there is no fourth tool
invocation — nor any later step at all), every earlier action executed
its tool, and the aborting third occurrence did not. -/
theorem stepRun_stuck_on_triple (loads : String → Option JVal)
    (reg : Registry) (model : List String → String) (maxSteps i : Nat)
    (a : String)
    (h0 : ((stepRun loads reg model maxSteps).trace.map ExecRec.sig)[i]?
      = some a)
    (h1 : ((stepRun loads reg model maxSteps).trace.map ExecRec.sig)[i + 1]?
      = some a)
    (h2 : ((stepRun loads reg model maxSteps).trace.map ExecRec.sig)[i + 2]?
      = some a) :
    (stepRun loads reg model maxSteps).answer = stuckRepeatMsg ∧
    (stepRun loads reg model maxSteps).trace.length = i + 3 ∧
    (∀ r ∈ (stepRun loads reg model maxSteps).trace.take (i + 2),
      r.executed = true) ∧
    (∀ r ∈ (stepRun loads reg model maxSteps).trace.drop (i + 2),
      r.executed = false) := by
  obtain ⟨F1, F2, F3⟩ := stepRunAux_window_facts loads reg model maxSteps [] []
  have e : stepRunAux loads reg model maxSteps [] []
      = stepRun loads reg model maxSteps := rfl
  rw [e] at F1 F2 F3
  have hlen2 : i + 2 <
      ((stepRun loads reg model maxSteps).trace.map ExecRec.sig).length :=
    (List.getElem?_eq_some.mp h2).1
  have hlen : ((stepRun loads reg model maxSteps).trace.map
      ExecRec.sig).length = i + 3 := by
    by_contra hne
    have := F1 (i + 2) (by
      show i + 2 + 1 < _
      omega)
    rw [winAfter_triple [] _ i a h0 h1 h2] at this
    simp [isTriple] at this
  have htrl : (stepRun loads reg model maxSteps).trace.length = i + 3 := by
    rw [← hlen]
    simp
  have hdlen : ((stepRun loads reg model maxSteps).trace.drop (i + 2)).length
      = 1 := by
    rw [List.length_drop, htrl]
    omega
  obtain ⟨y, hy⟩ := List.length_eq_one.mp hdlen
  have hysome : (stepRun loads reg model maxSteps).trace.getLast? = some y := by
    conv_lhs =>
      rw [← List.take_append_drop (i + 2)
        (stepRun loads reg model maxSteps).trace, hy]
    rw [List.getLast?_append]
    rfl
  have hstuck := F3 y hysome (by
    rw [hlen, winAfter_triple [] _ i a h0 h1 h2]
    simp [isTriple])
  refine ⟨hstuck.1, htrl, ?_, ?_⟩
  · intro r hr
    apply F2
    have hdl : (stepRun loads reg model maxSteps).trace.dropLast
        = (stepRun loads reg model maxSteps).trace.take (i + 2) := by
      rw [List.dropLast_eq_take, htrl]
      congr 1
    rw [hdl]
    exact hr
  · intro r hr
    rw [hy] at hr
    rw [List.mem_singleton.mp hr]
    exact hstuck.2

/-- Witness for C1: a model that repeats the same forecast action; with
budget 5 the run stops at the third occurrence with two executions. -/
theorem stepRun_stuck_on_triple_witness :
    (stepRun demoLoads [] demoModel 5).answer = stuckRepeatMsg ∧
    (stepRun demoLoads [] demoModel 5).trace.length = 3 ∧
    (∀ r ∈ (stepRun demoLoads [] demoModel 5).trace.take 2,
      r.executed = true) ∧
    (∀ r ∈ (stepRun demoLoads [] demoModel 5).trace.drop 2,
      r.executed = false) :=
  stepRun_stuck_on_triple demoLoads [] demoModel 5 0
    (canonicalSig "openmeteo_forecast"
      [("units", JVal.str "metric"), ("target_date", JVal.str "oggi")])
    (by decide) (by decide) (by decide)

/-- C2: for every model behavior (the oracles are universally
quantified), the step loop performs at most `max_steps` iterations, and
with a model whose output never parses it returns the fixed step-limit
fallback string after exactly `max_steps` iterations. -/
theorem stepRun_bounded_termination (loads : String → Option JVal)
    (reg : Registry) (model : List String → String) (maxSteps : Nat) :
    (stepRun loads reg model maxSteps).iters ≤ maxSteps ∧
    ((∀ obs, parseDecision loads (model obs) = .Unparsed) →
      (stepRun loads reg model maxSteps).answer =
        "I could not reach a final answer within the step limit." ∧
      (stepRun loads reg model maxSteps).iters = maxSteps) :=
  ⟨stepRunAux_iters_le loads reg model maxSteps [] [],
   fun h => stepRunAux_all_unparsed loads reg model h maxSteps [] []⟩

/-- Witness for C2 at a concrete never-parsing model with
`max_steps = 2`. -/
theorem stepRun_bounded_termination_witness :
    (stepRun demoLoadsNone [] demoModelNoise 2).iters ≤ 2 ∧
    (stepRun demoLoadsNone [] demoModelNoise 2).answer =
      "I could not reach a final answer within the step limit." ∧
    (stepRun demoLoadsNone [] demoModelNoise 2).iters = 2 := by
  have h := stepRun_bounded_termination demoLoadsNone [] demoModelNoise 2
  exact ⟨h.1, h.2 (fun obs => rfl)⟩

/-- C3: the tool executor never raises on a string tool name and an
argument mapping — an unknown name yields exactly
`{'error': "Tool '<name>' not available."}` and a raising handler yields
`{'error': <message>}`. -/
theorem execTool_never_raises (reg : Registry) (name : String) (args : Dict) :
    (∃ v, execTool reg (some (.str name)) (.obj args) = .ok v) ∧
    (regLookup reg name = none →
      execTool reg (some (.str name)) (.obj args) =
        .ok (.obj [("error", .str ("Tool '" ++ name ++ "' not available."))])) ∧
    (∀ h m, regLookup reg name = some h → h (.obj args) = .error m →
      execTool reg (some (.str name)) (.obj args) =
        .ok (.obj [("error", .str m)])) := by
  refine ⟨⟨execToolStr reg name (.obj args), rfl⟩, ?_, ?_⟩
  · intro h
    simp [execTool, execToolStr, notAvailable, h]
  · intro hdl m h1 h2
    simp [execTool, execToolStr, h1, h2]

/-- Witness for C3: a missing tool and an always-raising tool. -/
theorem execTool_never_raises_witness :
    execTool demoReg (some (.str "weather_xyz")) (.obj []) =
      .ok (.obj [("error", .str "Tool 'weather_xyz' not available.")]) ∧
    execTool demoReg (some (.str "boom")) (.obj []) =
      .ok (.obj [("error", .str "kaboom")]) := by
  constructor
  · exact (execTool_never_raises demoReg "weather_xyz" []).2.1 rfl
  · exact (execTool_never_raises demoReg "boom" []).2.2 _ "kaboom" rfl rfl

/-- C4: parsing is total — text without the final-answer marker yields
no Final decision, a failed structured parse yields the empty plan and
the fallback action, and for every successfully parsed value: any value
the confirm parser's shape selection rejects (not a mapping, not a
non-empty list with a mapping head — e.g. any JSON array with a
non-mapping head) falls back to the proposed action, and any value with
no mapping anywhere the plan parser looks (not a mapping, and if a list
then one without mapping elements, such as `[]` or `[1, 2]`) yields the
empty plan.  No exception escapes: the embedded parsers return plain
values and fold the `try`/`except` of the source into the `loads`
oracle's `Option`. -/
theorem parsing_total_unparsed (loads : String → Option JVal) (text : String) :
    (finalSearch text.data = none → cleanFinal text.data = none) ∧
    (loads (stripFencesStr text) = none →
      tryLoadJsonArray loads text = [] ∧
      ∀ fb, tryLoadJsonAction loads text fb = fb) ∧
    (∀ v, loads (stripFencesStr text) = some v →
      (selectAction v = none → ∀ fb, tryLoadJsonAction loads text fb = fb) ∧
      ((∀ d, v ≠ .obj d) → (∀ xs, v = .arr xs → ∀ x ∈ xs, ∀ d, x ≠ .obj d) →
        tryLoadJsonArray loads text = [])) := by
  refine ⟨?_, ?_, ?_⟩
  · intro h
    unfold cleanFinal
    rw [h]
  · intro h
    constructor
    · unfold tryLoadJsonArray
      rw [h]
      rfl
    · intro fb
      unfold tryLoadJsonAction
      rw [h]
  · intro v hv
    constructor
    · intro hsel fb
      unfold tryLoadJsonAction
      rw [hv]
      show (selectAction v).getD fb = fb
      rw [hsel]
      rfl
    · intro hobj harr
      unfold tryLoadJsonArray
      rw [hv]
      cases v with
      | obj d => exact absurd rfl (hobj d)
      | arr xs =>
        show xs.filterMap (fun x => match x with
          | JVal.obj d => some d | _ => none) = []
        rw [List.filterMap_eq_nil_iff]
        intro x hx
        have hnd := harr xs rfl x hx
        cases x with
        | obj d => exact absurd rfl (hnd d)
        | null => rfl
        | bool b => rfl
        | num n => rfl
        | str s => rfl
        | arr ys => rfl
      | null => rfl
      | bool b => rfl
      | num n => rfl
      | str s => rfl

/-- Witness for C4: a raising parse on marker-free text, and a parse
producing the non-mapping array `[1, 2]`. -/
theorem parsing_total_unparsed_witness :
    cleanFinal "hello".data = none ∧
    tryLoadJsonArray demoLoadsNone "hello" = [] ∧
    tryLoadJsonAction demoLoadsNone "hello" [] = [] ∧
    tryLoadJsonArray demoLoadsArr "[1, 2]" = [] ∧
    tryLoadJsonAction demoLoadsArr "[1, 2]" [("tool", JVal.str "t")]
      = [("tool", JVal.str "t")] := by
  have h1 := parsing_total_unparsed demoLoadsNone "hello"
  have h2 := parsing_total_unparsed demoLoadsArr "[1, 2]"
  have hv : demoLoadsArr (stripFencesStr "[1, 2]")
      = some (.arr [.num 1, .num 2]) := rfl
  have hele : ∀ xs, JVal.arr [JVal.num 1, JVal.num 2] = JVal.arr xs →
      ∀ x ∈ xs, ∀ d, x ≠ JVal.obj d := by
    intro xs hxs x hx d hd
    injection hxs with h'
    subst h'
    rcases List.mem_cons.mp hx with rfl | hx'
    · exact JVal.noConfusion hd
    · rcases List.mem_cons.mp hx' with rfl | hx''
      · exact JVal.noConfusion hd
      · simp at hx''
  refine ⟨h1.1 (by decide), (h1.2.1 rfl).1, (h1.2.1 rfl).2 [], ?_, ?_⟩
  · exact (h2.2.2 _ hv).2 (fun d hd => JVal.noConfusion hd) hele
  · exact (h2.2.2 _ hv).1 rfl [("tool", JVal.str "t")]

/-- C5 (counterexample): the empty mapping — which has neither a `tool`
nor an `args` key — is accepted as an Action by the confirm parser,
refuting the claimed acceptance condition. -/
theorem selectAction_claimed_shape_false :
    selectAction (.obj []) = some [] ∧ ¬ claimC5Shape (.obj []) := by
  refine ⟨rfl, ?_⟩
  rintro (⟨d, hd⟩ | ⟨d, hd, hts, -⟩)
  · exact JVal.noConfusion hd
  · injection hd with hd'
    subst hd'
    simp [dictGet] at hts

/-- C5 (amended): the confirm parser accepts exactly a bare mapping (any
keys, returned unchanged) or a non-empty list of any length whose first
element is a mapping (that element is returned); the plan parser keeps
exactly the mapping elements of a list and wraps a bare mapping as a
one-element plan.  No `tool`/`args` validation occurs, and the two bare
shapes are mutually exclusive, so the checking order is unobservable. -/
theorem loadedActionShapes_characterization :
    (∀ v d, selectAction v = some d ↔
      (v = .obj d ∨ ∃ rest, v = .arr (.obj d :: rest))) ∧
    (∀ v d, d ∈ arrSelect (some v) ↔
      (v = .obj d ∨ ∃ xs, v = .arr xs ∧ JVal.obj d ∈ xs)) := by
  constructor
  · intro v d
    constructor
    · intro h
      cases v with
      | obj kvs =>
        left
        injection h with h'
        rw [h']
      | arr xs =>
        cases xs with
        | nil => exact Option.noConfusion h
        | cons x tl =>
          cases x with
          | obj kvs =>
            right
            refine ⟨tl, ?_⟩
            injection h with h'
            rw [h']
          | null => exact Option.noConfusion h
          | bool b => exact Option.noConfusion h
          | num n => exact Option.noConfusion h
          | str s => exact Option.noConfusion h
          | arr ys => exact Option.noConfusion h
      | null => exact Option.noConfusion h
      | bool b => exact Option.noConfusion h
      | num n => exact Option.noConfusion h
      | str s => exact Option.noConfusion h
    · rintro (rfl | ⟨rest, rfl⟩) <;> rfl
  · intro v d
    cases v with
    | obj kvs =>
      constructor
      · intro h
        rcases List.mem_singleton.mp h with rfl
        exact Or.inl rfl
      · rintro (h | ⟨xs, h, -⟩)
        · injection h with h'
          rw [h']
          exact List.mem_singleton.mpr rfl
        · exact JVal.noConfusion h
    | arr xs =>
      constructor
      · intro h
        rcases List.mem_filterMap.mp h with ⟨x, hx, hfx⟩
        refine Or.inr ⟨xs, rfl, ?_⟩
        cases x with
        | obj kvs =>
          injection hfx with h'
          rw [← h']
          exact hx
        | null => exact Option.noConfusion hfx
        | bool b => exact Option.noConfusion hfx
        | num n => exact Option.noConfusion hfx
        | str s => exact Option.noConfusion hfx
        | arr ys => exact Option.noConfusion hfx
      · rintro (h | ⟨xs', h, hmem⟩)
        · exact JVal.noConfusion h
        · injection h with h'
          subst h'
          exact List.mem_filterMap.mpr ⟨.obj d, hmem, rfl⟩
    | null => simp [arrSelect]
    | bool b => simp [arrSelect]
    | num n => simp [arrSelect]
    | str s => simp [arrSelect]

/-- `_strip_code_fences` output never starts with whitespace (it ends
with a `strip()`). -/
theorem stripFences_no_leading (l : List Char) :
    ∀ c, (stripFences l).head? = some c → pyIsSpace c = false :=
  fun c hc => stripChars_no_leading _ c hc

/-- C6: for every text in which the case-insensitive `Final Answer:`
marker is followed by a body, `_clean_final` extracts exactly that body,
whitespace-stripped and code-fence-stripped, truncated at (not
including) the first occurrence of any leakage marker of the fixed set
(and stripped again); an extraction that ends up empty is reported as no
match. -/
theorem cleanFinal_truncates_at_first_marker (text rest : List Char)
    (h : finalSearch text = some rest) :
    cleanFinal text =
      (if (truncSpec leakMarkers (stripFences (stripChars rest))).isEmpty
       then none
       else some (truncSpec leakMarkers (stripFences (stripChars rest)))) := by
  unfold cleanFinal
  rw [h]
  dsimp only
  rw [stripChars_group1]
  rw [truncLoop_eq_truncSpec (stripFences_no_leading _)]

/-- Witness for C6 on a body with plan leakage. -/
theorem cleanFinal_truncates_at_first_marker_witness :
    cleanFinal "Final Answer: ok\nPlan: x".data = some "ok".data := by
  have h := cleanFinal_truncates_at_first_marker
    "Final Answer: ok\nPlan: x".data " ok\nPlan: x".data (by decide)
  rw [h]
  decide

/-- C7: every tool call of the step loop runs on arguments with the
safety defaults applied — a missing `units` becomes `"metric"`, and for
a date-sensitive tool a missing `target_date` becomes `"oggi"`. -/
theorem stepRun_safety_defaults (loads : String → Option JVal)
    (reg : Registry) (model : List String → String) (maxSteps : Nat) :
    ∀ r ∈ (stepRun loads reg model maxSteps).trace,
      (dictGet r.rawArgs "units" = none →
        dictGet r.resolved "units" = some (.str "metric")) ∧
      (r.tool ∈ dateSensitiveTools → dictGet r.rawArgs "target_date" = none →
        dictGet r.resolved "target_date" = some (.str "oggi")) := by
  intro r hr
  have hres := stepRunAux_trace_resolved loads reg model maxSteps [] [] r hr
  constructor
  · intro h
    rw [hres]
    exact applyDefaults_units _ _ h
  · intro ht h
    rw [hres]
    exact applyDefaults_targetDate _ _ ht h

/-- Witness for C7: a forecast action with no arguments gets both
defaults injected. -/
theorem stepRun_safety_defaults_witness :
    ∃ r, r ∈ (stepRun demoLoads [] demoModel 1).trace ∧
      dictGet r.rawArgs "units" = none ∧
      dictGet r.resolved "units" = some (.str "metric") ∧
      dictGet r.resolved "target_date" = some (.str "oggi") := by
  have hmem : (⟨"openmeteo_forecast", [],
      [("units", JVal.str "metric"), ("target_date", JVal.str "oggi")],
      canonicalSig "openmeteo_forecast"
        [("units", JVal.str "metric"), ("target_date", JVal.str "oggi")],
      true⟩ : ExecRec) ∈ (stepRun demoLoads [] demoModel 1).trace := by
    exact List.mem_singleton.mpr rfl
  have h := stepRun_safety_defaults demoLoads [] demoModel 1 _ hmem
  exact ⟨_, hmem, rfl, h.1 rfl, h.2 (by decide) rfl⟩

/-- C8: whenever the plan/replan `run` terminates normally, its value is
a non-empty string — either a cleaned final answer (some model text the
final-answer cleaner accepted) or the fixed replanning fallback; an
empty cleaned body is never returned, because `_clean_final` maps it to
`None` and the loop continues. -/
theorem planRun_returns_nonempty_string (loads : String → Option JVal)
    (reg : Registry) (o : PlanOracles) (maxReplans : Nat) (ans : String)
    (n : Nat) (h : planRun loads reg o maxReplans = .ok (ans, n)) :
    ans ≠ "" ∧ (ans = replanFallbackMsg ∨ ∃ t, cleanFinalStr t = some ans) := by
  have hshape := planRunAux_shape loads reg o maxReplans [] _ ans n h
  refine ⟨?_, hshape⟩
  rcases hshape with h1 | ⟨t, h1⟩
  · rw [h1]
    decide
  · exact cleanFinalStr_some_ne_empty h1

/-- Witness for C8 at a run that exhausts an empty replanning budget. -/
theorem planRun_returns_nonempty_string_witness :
    replanFallbackMsg ≠ "" ∧
    (replanFallbackMsg = replanFallbackMsg ∨
      ∃ t, cleanFinalStr t = some replanFallbackMsg) :=
  planRun_returns_nonempty_string demoLoadsNone [] demoPlanO 0
    replanFallbackMsg 0 rfl

/-- C9: the plan loop replans at most `max_replans` times, and when the
model never produces a final answer it returns exactly the fixed
replanning-limit fallback after exactly `max_replans` replans. -/
theorem planRun_replan_ceiling (loads : String → Option JVal)
    (reg : Registry) (o : PlanOracles) (maxReplans : Nat) :
    (∀ ans n, planRun loads reg o maxReplans = .ok (ans, n) →
      n ≤ maxReplans) ∧
    ((∀ obs, cleanFinalStr (o.askFinal obs) = none) →
      ∀ ans n, planRun loads reg o maxReplans = .ok (ans, n) →
        ans = "I could not reach a final answer within the replanning limit." ∧
        n = maxReplans) := by
  constructor
  · intro ans n h
    exact planRunAux_count loads reg o maxReplans _ _ _ _ h
  · intro hnf ans n h
    exact planRunAux_no_final loads reg o hnf maxReplans _ _ _ _ h

/-- Witness for C9 with `max_replans = 2` and a model that never
finalizes. -/
theorem planRun_replan_ceiling_witness :
    ∃ ans n, planRun demoLoadsNone [] demoPlanO 2 = .ok (ans, n) ∧
      ans = "I could not reach a final answer within the replanning limit." ∧
      n = 2 ∧ n ≤ 2 := by
  have h := (planRun_replan_ceiling demoLoadsNone [] demoPlanO 2).2
    (fun obs => rfl) replanFallbackMsg 2 rfl
  have h' := (planRun_replan_ceiling demoLoadsNone [] demoPlanO 2).1
    replanFallbackMsg 2 rfl
  exact ⟨replanFallbackMsg, 2, rfl, h.1, h.2, h'⟩

/-- C10: when the model's confirmation reply does not parse as a mapping
or as a non-empty list whose first element is a mapping (including when
the parse raises), the confirmed action is the originally planned action
unchanged. -/
theorem confirmAction_fallback_to_plan (loads : String → Option JVal)
    (o : PlanOracles) (obs : List String) (action : Dict)
    (h : ∀ v, loads (stripFencesStr (o.askConfirm obs action)) = some v →
      selectAction v = none) :
    confirmAction loads o obs action = action := by
  unfold confirmAction tryLoadJsonAction
  rcases hl : loads (stripFencesStr (o.askConfirm obs action)) with _ | v
  · rfl
  · show (selectAction v).getD action = action
    rw [h v hl]
    rfl

/-- Witness for C10: a raising parse keeps the planned action. -/
theorem confirmAction_fallback_to_plan_witness :
    confirmAction demoLoadsNone demoPlanO [] [("tool", .str "date_math")] =
      [("tool", .str "date_math")] :=
  confirmAction_fallback_to_plan demoLoadsNone demoPlanO [] _
    (fun v hv => by simp [demoLoadsNone] at hv)

end AgentCore

example : AgentCore.stripFences "```json\nab\n```".data = "ab".data := by decide
example : AgentCore.cleanFinalStr "Final Answer: 42." = some "42." := by decide
example : AgentCore.cleanFinalStr "no marker here" = none := by decide
example : AgentCore.cleanFinalStr "Final Answer: yes\nPlan: more" = some "yes" := by decide
example : AgentCore.cleanFinalStr "final ANSWER:   " = none := by decide
example : AgentCore.firstIdx "ab".data "xxabz".data = some 2 := by decide
-- cross-checks of the regex model against the reference semantics
example : AgentCore.stripFencesStr "x ```" = "x" := by decide
example : AgentCore.stripFencesStr "a\n  ```\nb" = "a\nb" := by decide
example : AgentCore.stripFencesStr "```py x\nfoo" = "x\nfoo" := by decide
example : AgentCore.stripFencesStr "ab```" = "ab" := by decide
example : AgentCore.stripFencesStr "  ```x" = "```x" := by decide
example : AgentCore.stripFencesStr "hello ```world```" = "hello ```world" := by decide
example : AgentCore.stripFencesStr "```\n```" = "" := by decide
example : AgentCore.stripFencesStr "t\n```inner``` done" = "t\n``` done" := by decide
example : AgentCore.cleanFinalStr "xx Final Answer: a\n\x7bb\nPlan:c" = some "a" := by decide
example : AgentCore.cleanFinalStr "Final Answer: ```quoted```" = none := by decide
example : AgentCore.cleanFinalStr "Final Answer:\n\nbody text" = some "body text" := by decide
example : AgentCore.cleanFinalStr "Final Answer: first\nfinal answer: second" = some "first\nfinal answer: second" := by decide
example : AgentCore.cleanFinalStr "Final Answer: a \n\x7b" = some "a" := by decide
example : AgentCore.cleanFinalStr "Final Answer: x\n[1,2]" = some "x" := by decide
example : AgentCore.firstIdx "ab".data "xxaz".data = none := by decide
example : AgentCore.stripChars "  ab c\n".data = "ab c".data := by decide
